import Mathlib

/-!
A shallow embedding of `src/main.rs` of the `fext` repository: a program that
scans the current working directory, groups the regular, non-hidden files by
lowercased file extension, and prints one sorted report.

The embedding models the three fallible interactions with the platform
(`env::current_dir()`, `fs::read_dir(..)` and the per-entry reads of the
returned iterator) as explicit `Except`-valued inputs, and standard output /
standard error / the exit status as explicit results.  Directory entries are
modeled by the two observations the program makes of them: the resolved
file-type test `path.is_file()` and the UTF-8 decoded file name
`path.file_name().and_then(|s| s.to_str())`.
-/

/-- Strict lexicographic comparison of two character lists by Unicode
codepoint.  This is the order in which Rust compares `String`s: Rust compares
the UTF-8 bytes lexicographically, and UTF-8 byte order agrees with codepoint
order. -/
def charsLt : List Char → List Char → Bool
  | [], [] => false
  | [], _ :: _ => true
  | _ :: _, [] => false
  | a :: as, b :: bs =>
    if a.toNat < b.toNat then true
    else if b.toNat < a.toNat then false
    else charsLt as bs

/-- Non-strict lexicographic comparison of two character lists by Unicode
codepoint. -/
def charsLe : List Char → List Char → Bool
  | [], _ => true
  | _ :: _, [] => false
  | a :: as, b :: bs =>
    if a.toNat < b.toNat then true
    else if b.toNat < a.toNat then false
    else charsLe as bs

/-- Model of Rust's `Ord` on `String`, strict part. -/
def strLt (s t : String) : Prop := charsLt s.data t.data = true

/-- Model of Rust's `Ord` on `String`, non-strict part. -/
def strLe (s t : String) : Prop := charsLe s.data t.data = true

instance : DecidableRel strLt :=
  fun s t => inferInstanceAs (Decidable (charsLt s.data t.data = true))

instance : DecidableRel strLe :=
  fun s t => inferInstanceAs (Decidable (charsLe s.data t.data = true))

/-- The placeholder key used for files without an extension
(`main.rs`, line 7). -/
def NO_EXTENSION_PLACEHOLDER : String := ":"

/-- Model of `filename.starts_with('.')` (`main.rs`, line 34): true exactly
when the first character of the name is `'.'`. -/
def isHidden (s : String) : Bool :=
  match s.data with
  | [] => false
  | c :: _ => c == '.'

/-- Model of `path.extension()` (`main.rs`, line 39) on a path whose file
name is `name`.  It follows `rsplit_file_at_dot` of the Rust standard
library: split the file name at its last `'.'`; if the name is `".."`, has
no dot at all, or the only text before the last dot is empty (a lone leading
dot), there is no extension; otherwise the extension is the part after the
last dot (possibly empty, as in `"foo."`). -/
def rustExtension (name : String) : Option String :=
  if name = ".." then none
  else
    match name.data.reverse.dropWhile (fun c => c != '.') with
    | [] => none
    | _ :: beforeRev =>
      if beforeRev.isEmpty then none
      else some ⟨(name.data.reverse.takeWhile (fun c => c != '.')).reverse⟩

/-- Model of `str::to_lowercase` (`main.rs`, line 41) as character-wise
lowercasing.  `Char.toLower` lowercases the ASCII letters; the Unicode
special cases of the Rust function are not exercised by any claim. -/
def lowerStr (s : String) : String := ⟨s.data.map Char.toLower⟩

/-- The group key computed for an included file name (`main.rs`,
lines 39-44): the lowercased extension when one exists, and the placeholder
otherwise. -/
def extKey (filename : String) : String :=
  match rustExtension filename with
  | some ext => lowerStr ext
  | none => NO_EXTENSION_PLACEHOLDER

/-- A directory entry as observed by the program.  `isFile` is the resolved
file-type test `path.is_file()` (which follows symlinks, so it holds exactly
for regular files and symlinks resolving to regular files), and `nameUtf8`
is `some s` when the entry's file name is valid UTF-8 decoding to `s`, and
`none` when `to_str()` fails. -/
structure DirEntry where
  isFile : Bool
  nameUtf8 : Option String
  deriving DecidableEq

/-- Model of the `BTreeMap<String, Vec<String>>` of `main.rs`, line 21: an
association list kept strictly sorted by key in the Rust string order. -/
abbrev GroupTable := List (String × List String)

/-- Model of
`files_by_extension.entry(extension).or_default().push(filename)`
(`main.rs`, lines 52-55): append the file name to the vector of its key,
creating the key at its sorted position when absent. -/
def insertName : GroupTable → String → String → GroupTable
  | [], k, f => [(k, [f])]
  | (k', fs) :: rest, k, f =>
    if k = k' then (k', fs ++ [f]) :: rest
    else if charsLt k.data k'.data then (k, [f]) :: (k', fs) :: rest
    else (k', fs) :: insertName rest k f

/-- One iteration of the scan loop body (`main.rs`, lines 29-57): only
regular files with a UTF-8 decodable, non-hidden name are inserted. -/
def processEntry (tbl : GroupTable) (e : DirEntry) : GroupTable :=
  if e.isFile then
    match e.nameUtf8 with
    | some filename =>
      if isHidden filename then tbl
      else insertName tbl (extKey filename) filename
    | none => tbl
  else tbl

/-- The grouping table built by a scan in which every entry was readable. -/
def buildTable (es : List DirEntry) : GroupTable := es.foldl processEntry []

/-- Insertion of a list of already-filtered file names into a table, in
order; `buildTable` coincides with `insertAll` over `includedNames`. -/
def insertAll (tbl : GroupTable) (names : List String) : GroupTable :=
  names.foldl (fun t s => insertName t (extKey s) s) tbl

/-- The scan loop over fallible entries (`main.rs`, lines 24-25): the first
entry error aborts the whole scan. -/
def scanEntries : GroupTable → List (Except String DirEntry) → Except String GroupTable
  | tbl, [] => Except.ok tbl
  | _, Except.error e :: _ => Except.error e
  | tbl, Except.ok en :: rest => scanEntries (processEntry tbl en) rest

/-- Concatenation of a list of output fragments, in order. -/
def concatAll : List String → String
  | [] => ""
  | s :: rest => s ++ concatAll rest

/-- Model of the print loop (`main.rs`, lines 61-75): for each key in table
order, sort the file names ascending (`sort_unstable`, modeled by insertion
sort with respect to `strLe`; any correct ascending sort produces the same
list), print the key header, one `"- "`-prefixed line per file, and a blank
line after the group. -/
def renderGroups : GroupTable → String
  | [] => ""
  | (extension, filenames) :: rest =>
    let sorted_filenames := filenames.insertionSort strLe
    extension ++ ":\n"
      ++ concatAll (sorted_filenames.map (fun f => "- " ++ f ++ "\n"))
      ++ "\n"
      ++ renderGroups rest

/-- Model of `run_file_sorter` (`main.rs`, lines 11-78).  The result is the
accumulated standard output together with the returned `Result`.  Note line
16 of the source: a `Scanning directory: <dir>` banner and a blank line are
printed as soon as the current directory has been resolved, before the scan
begins. -/
def run_file_sorter (currentDir : Except String String)
    (readDir : Except String (List (Except String DirEntry))) :
    String × Except String Unit :=
  match currentDir with
  | Except.error e => ("", Except.error e)
  | Except.ok dir =>
    let banner := "Scanning directory: " ++ dir ++ "\n\n"
    match readDir with
    | Except.error e => (banner, Except.error e)
    | Except.ok entries =>
      match scanEntries [] entries with
      | Except.error e => (banner, Except.error e)
      | Except.ok tbl => (banner ++ renderGroups tbl, Except.ok ())

/-- The observable outcome of one whole run of the process. -/
structure RunOutcome where
  stdout : String
  stderr : String
  exitCode : Nat
  deriving DecidableEq

/-- Model of `main` (`main.rs`, lines 80-89): on `Ok` the process ends with
status 0 and empty standard error; on `Err(e)` it prints
`An error occurred: <e>` (with a newline) to standard error and exits with
status 1. -/
def mainRun (currentDir : Except String String)
    (readDir : Except String (List (Except String DirEntry))) : RunOutcome :=
  match run_file_sorter currentDir readDir with
  | (out, Except.ok ()) => ⟨out, "", 0⟩
  | (out, Except.error e) => ⟨out, "An error occurred: " ++ e ++ "\n", 1⟩

/-- The name under which an entry reaches the grouping table, when it passes
all three filters of the loop body. -/
def entryName (e : DirEntry) : Option String :=
  if e.isFile then
    match e.nameUtf8 with
    | some s => if isHidden s then none else some s
    | none => none
  else none

/-- The names of the entries that the scan includes, in scan order. -/
def includedNames (es : List DirEntry) : List String := es.filterMap entryName

/-- The keys of a grouping table, in table order. -/
def tableKeys (tbl : GroupTable) : List String := tbl.map Prod.fst

/-- Lookup of the file list of a key, empty when the key is absent. -/
def lookupG : GroupTable → String → List String
  | [], _ => []
  | (k, fs) :: rest, k' => if k' = k then fs else lookupG rest k'

/-- A table whose keys are strictly ascending in the Rust string order; the
invariant of the `BTreeMap` model. -/
def SortedTable (tbl : GroupTable) : Prop := (tableKeys tbl).Sorted strLt

/-- The groups of the printed report of a successful run: the grouping table
with each file list sorted ascending. -/
def reportGroups (es : List DirEntry) : List (String × List String) :=
  (buildTable es).map (fun g => (g.1, g.2.insertionSort strLe))

/-- The text a single group contributes to the report: a header line with
the key and a colon, one `"- "`-prefixed line per file name, and a blank
separator line. -/
def groupText (g : String × List String) : String :=
  g.1 ++ ":\n" ++ concatAll (g.2.map (fun f => "- " ++ f ++ "\n")) ++ "\n"

/-- The report text of a successful run over the given entries. -/
def reportText (es : List DirEntry) : String :=
  concatAll ((reportGroups es).map groupText)

/-- The description of the extension used by the specification: the
substring of the file name after its last `'.'`, present exactly when the
name contains a dot. -/
def afterLastDot (s : String) : Option String :=
  if '.' ∈ s.data then some ⟨(s.data.reverse.takeWhile (fun c => c != '.')).reverse⟩
  else none

/-! ### Order lemmas for the Rust string comparison -/

theorem char_eq_of_toNat_eq {a b : Char} (h : a.toNat = b.toNat) : a = b :=
  Char.eq_of_val_eq (UInt32.eq_of_toBitVec_eq (BitVec.eq_of_toNat_eq h))

theorem str_ext {s t : String} (h : s.data = t.data) : s = t := by
  cases s
  cases t
  exact congrArg String.mk h

theorem charsLt_irrefl : ∀ l : List Char, charsLt l l = false
  | [] => rfl
  | a :: as => by simp [charsLt, charsLt_irrefl as]

theorem charsLt_asymm : ∀ {a b : List Char}, charsLt a b = true → charsLt b a = false
  | [], [], h => by simp [charsLt] at h
  | [], _ :: _, _ => by simp [charsLt]
  | _ :: _, [], h => by simp [charsLt] at h
  | a :: as, b :: bs, h => by
    by_cases h1 : a.toNat < b.toNat
    · have h2 : ¬ b.toNat < a.toNat := by omega
      simp [charsLt, h1, h2]
    · by_cases h2 : b.toNat < a.toNat
      · simp [charsLt, h1, h2] at h
      · have ih := charsLt_asymm (a := as) (b := bs) (by simpa [charsLt, h1, h2] using h)
        simp [charsLt, h1, h2, ih]

theorem charsLt_conn : ∀ {a b : List Char}, charsLt a b = false → charsLt b a = false → a = b
  | [], [], _, _ => rfl
  | [], _ :: _, h, _ => by simp [charsLt] at h
  | _ :: _, [], _, h' => by simp [charsLt] at h'
  | a :: as, b :: bs, h, h' => by
    by_cases h1 : a.toNat < b.toNat
    · simp [charsLt, h1] at h
    · by_cases h2 : b.toNat < a.toNat
      · simp [charsLt, h2] at h'
      · have hab : a = b := char_eq_of_toNat_eq (by omega)
        have htl : as = bs :=
          charsLt_conn (by simpa [charsLt, h1, h2] using h) (by simpa [charsLt, h1, h2] using h')
        rw [hab, htl]

theorem charsLt_trans : ∀ {a b c : List Char},
    charsLt a b = true → charsLt b c = true → charsLt a c = true
  | [], [], _, h, _ => by simp [charsLt] at h
  | [], _ :: _, [], _, h' => by simp [charsLt] at h'
  | [], _ :: _, _ :: _, _, _ => by simp [charsLt]
  | _ :: _, [], _, h, _ => by simp [charsLt] at h
  | _ :: _, _ :: _, [], _, h' => by simp [charsLt] at h'
  | a :: as, b :: bs, c :: cs, h, h' => by
    by_cases h1 : a.toNat < b.toNat <;> by_cases h2 : b.toNat < c.toNat
    · have hac : a.toNat < c.toNat := by omega
      simp [charsLt, hac]
    · by_cases h3 : c.toNat < b.toNat
      · simp [charsLt, h2, h3] at h'
      · have hac : a.toNat < c.toNat := by omega
        simp [charsLt, hac]
    · by_cases h4 : b.toNat < a.toNat
      · simp [charsLt, h1, h4] at h
      · have hac : a.toNat < c.toNat := by omega
        simp [charsLt, hac]
    · by_cases h4 : b.toNat < a.toNat
      · simp [charsLt, h1, h4] at h
      · by_cases h3 : c.toNat < b.toNat
        · simp [charsLt, h2, h3] at h'
        · have hac1 : ¬ a.toNat < c.toNat := by omega
          have hac2 : ¬ c.toNat < a.toNat := by omega
          have ih := charsLt_trans (a := as) (b := bs) (c := cs)
            (by simpa [charsLt, h1, h4] using h) (by simpa [charsLt, h2, h3] using h')
          simp [charsLt, hac1, hac2, ih]

theorem charsLe_iff : ∀ {a b : List Char}, charsLe a b = true ↔ (charsLt a b = true ∨ a = b)
  | [], [] => by simp [charsLe, charsLt]
  | [], _ :: _ => by simp [charsLe, charsLt]
  | _ :: _, [] => by simp [charsLe, charsLt]
  | a :: as, b :: bs => by
    by_cases h1 : a.toNat < b.toNat
    · simp [charsLe, charsLt, h1]
    · by_cases h2 : b.toNat < a.toNat
      · have hne : ¬ (a :: as) = (b :: bs) := by
          intro he
          injection he with hh _
          subst hh
          omega
        simp [charsLe, charsLt, h1, h2, hne]
      · have hab : a = b := char_eq_of_toNat_eq (by omega)
        subst hab
        have ih := charsLe_iff (a := as) (b := bs)
        simp only [charsLe, charsLt, h1, h2, if_false, if_neg h1, List.cons.injEq, true_and]
        simpa using ih

theorem strLt_irrefl (s : String) : ¬ strLt s s := by
  simp [strLt, charsLt_irrefl]

theorem strLt_asymm {s t : String} (h : strLt s t) : ¬ strLt t s := by
  have := charsLt_asymm (a := s.data) (b := t.data) h
  simp [strLt, this]

theorem strLt_ne {s t : String} (h : strLt s t) : s ≠ t := by
  intro he
  subst he
  exact strLt_irrefl s h

theorem strLt_conn {s t : String} (h : ¬ strLt s t) (h' : ¬ strLt t s) : s = t := by
  exact str_ext (charsLt_conn (by simpa [strLt] using h) (by simpa [strLt] using h'))

theorem strLt_trans {a b c : String} (h : strLt a b) (h' : strLt b c) : strLt a c :=
  charsLt_trans h h'

theorem strLe_iff {s t : String} : strLe s t ↔ (strLt s t ∨ s = t) := by
  constructor
  · intro h
    rcases charsLe_iff.mp h with h | h
    · exact Or.inl h
    · exact Or.inr (str_ext h)
  · intro h
    apply charsLe_iff.mpr
    rcases h with h | h
    · exact Or.inl h
    · exact Or.inr (by rw [h])

instance : IsTrans String strLe :=
  ⟨fun a b c h h' => by
    rcases strLe_iff.mp h with h | h <;> rcases strLe_iff.mp h' with h' | h'
    · exact strLe_iff.mpr (Or.inl (strLt_trans h h'))
    · exact strLe_iff.mpr (Or.inl (h' ▸ h))
    · exact strLe_iff.mpr (Or.inl (h ▸ h'))
    · exact strLe_iff.mpr (Or.inr (h.trans h'))⟩

instance : IsTotal String strLe :=
  ⟨fun a b => by
    by_cases h1 : strLt a b
    · exact Or.inl (strLe_iff.mpr (Or.inl h1))
    · by_cases h2 : strLt b a
      · exact Or.inr (strLe_iff.mpr (Or.inl h2))
      · exact Or.inl (strLe_iff.mpr (Or.inr (strLt_conn h1 h2)))⟩

instance : IsAntisymm String strLe :=
  ⟨fun a b h h' => by
    rcases strLe_iff.mp h with h | h
    · rcases strLe_iff.mp h' with h' | h'
      · exact absurd h' (strLt_asymm h)
      · exact h'.symm
    · exact h⟩

/-! ### Lemmas about the grouping table -/

theorem tableKeys_cons (k0 : String) (fs : List String) (rest : GroupTable) :
    tableKeys ((k0, fs) :: rest) = k0 :: tableKeys rest := rfl

theorem insertName_self (k0 : String) (fs : List String) (rest : GroupTable) (f : String) :
    insertName ((k0, fs) :: rest) k0 f = (k0, fs ++ [f]) :: rest := by
  simp [insertName]

theorem insertName_lt {k k0 : String} (h2 : charsLt k.data k0.data = true)
    (fs : List String) (rest : GroupTable) (f : String) :
    insertName ((k0, fs) :: rest) k f = (k, [f]) :: (k0, fs) :: rest := by
  have h1 : ¬ k = k0 := by
    intro he
    subst he
    simp [charsLt_irrefl] at h2
  simp [insertName, h1, h2]

theorem insertName_gt {k k0 : String} (h1 : ¬ k = k0)
    (h2 : ¬ charsLt k.data k0.data = true)
    (fs : List String) (rest : GroupTable) (f : String) :
    insertName ((k0, fs) :: rest) k f = (k0, fs) :: insertName rest k f := by
  simp [insertName, h1, h2]

theorem lookupG_eq_nil {k : String} :
    ∀ {tbl : GroupTable}, k ∉ tableKeys tbl → lookupG tbl k = []
  | [], _ => rfl
  | (k0, fs) :: rest, h => by
    rw [tableKeys_cons] at h
    simp only [List.mem_cons, not_or] at h
    simp [lookupG, h.1, lookupG_eq_nil h.2]

theorem mem_tableKeys_insertName (k f k' : String) :
    ∀ tbl : GroupTable, k' ∈ tableKeys (insertName tbl k f) ↔ k' = k ∨ k' ∈ tableKeys tbl
  | [] => by simp [insertName, tableKeys]
  | (k0, fs) :: rest => by
    by_cases h1 : k = k0
    · subst h1
      rw [insertName_self]
      simp only [tableKeys_cons, List.mem_cons]
      tauto
    · by_cases h2 : charsLt k.data k0.data
      · rw [insertName_lt h2]
        simp only [tableKeys_cons, List.mem_cons]
      · rw [insertName_gt h1 h2, tableKeys_cons, tableKeys_cons]
        simp only [List.mem_cons, mem_tableKeys_insertName k f k' rest]
        tauto

theorem sortedTable_insertName (k f : String) :
    ∀ {tbl : GroupTable}, SortedTable tbl → SortedTable (insertName tbl k f)
  | [], _ => by
    simp [insertName, SortedTable, tableKeys]
  | (k0, fs) :: rest, h => by
    rw [SortedTable, tableKeys_cons, List.sorted_cons] at h
    obtain ⟨hmin, hsorted⟩ := h
    by_cases h1 : k = k0
    · subst h1
      rw [SortedTable, insertName_self, tableKeys_cons, List.sorted_cons]
      exact ⟨hmin, hsorted⟩
    · by_cases h2 : charsLt k.data k0.data
      · rw [SortedTable, insertName_lt h2, tableKeys_cons, tableKeys_cons,
          List.sorted_cons, List.sorted_cons]
        refine ⟨?_, ?_, hsorted⟩
        · intro b hb
          rcases List.mem_cons.mp hb with rfl | hb
          · exact h2
          · exact strLt_trans h2 (hmin b hb)
        · exact hmin
      · have h3 : strLt k0 k := by
          by_contra hc
          exact h1 (strLt_conn h2 hc)
        rw [SortedTable, insertName_gt h1 h2, tableKeys_cons, List.sorted_cons]
        constructor
        · intro b hb
          rcases (mem_tableKeys_insertName k f b rest).mp hb with rfl | hb
          · exact h3
          · exact hmin b hb
        · exact sortedTable_insertName k f hsorted

theorem lookupG_insertName (k f : String) :
    ∀ {tbl : GroupTable}, SortedTable tbl → ∀ k',
      lookupG (insertName tbl k f) k' =
        if k' = k then lookupG tbl k' ++ [f] else lookupG tbl k'
  | [], _, k' => by
    by_cases h : k' = k <;> simp [insertName, lookupG, h]
  | (k0, fs) :: rest, h, k' => by
    rw [SortedTable, tableKeys_cons, List.sorted_cons] at h
    obtain ⟨hmin, hsorted⟩ := h
    by_cases h1 : k = k0
    · subst h1
      rw [insertName_self]
      by_cases h2 : k' = k
      · subst h2
        simp [lookupG]
      · simp [lookupG, h2]
    · by_cases h2 : charsLt k.data k0.data
      · have hknotin : k ∉ tableKeys ((k0, fs) :: rest) := by
          rw [tableKeys_cons]
          intro hm
          rcases List.mem_cons.mp hm with rfl | hm
          · exact h1 rfl
          · exact strLt_irrefl k (strLt_trans h2 (hmin k hm))
        rw [insertName_lt h2]
        by_cases h3 : k' = k
        · subst h3
          rw [lookupG_eq_nil hknotin]
          simp [lookupG]
        · simp [lookupG, h3]
      · rw [insertName_gt h1 h2]
        by_cases h3 : k' = k0
        · subst h3
          have hne : ¬ k' = k := fun he => h1 he.symm
          simp [lookupG, hne]
        · simp only [lookupG, if_neg h3]
          rw [lookupG_insertName k f hsorted k']

theorem groupsNeNil_insertName (k f : String) :
    ∀ {tbl : GroupTable}, (∀ g ∈ tbl, g.2 ≠ []) → ∀ g ∈ insertName tbl k f, g.2 ≠ []
  | [], _, g, hg => by
    simp only [insertName, List.mem_singleton] at hg
    subst hg
    simp
  | (k0, fs) :: rest, h, g, hg => by
    by_cases h1 : k = k0
    · subst h1
      rw [insertName_self] at hg
      rcases List.mem_cons.mp hg with rfl | hg
      · simp
      · exact h g (List.mem_cons_of_mem _ hg)
    · by_cases h2 : charsLt k.data k0.data
      · rw [insertName_lt h2] at hg
        rcases List.mem_cons.mp hg with rfl | hg
        · simp
        · exact h g hg
      · rw [insertName_gt h1 h2] at hg
        rcases List.mem_cons.mp hg with rfl | hg
        · exact h (k0, fs) (List.mem_cons_self _ _)
        · exact groupsNeNil_insertName k f
            (fun g' hg' => h g' (List.mem_cons_of_mem _ hg')) g hg

theorem insertAll_cons (tbl : GroupTable) (s : String) (names : List String) :
    insertAll tbl (s :: names) = insertAll (insertName tbl (extKey s) s) names := rfl

theorem sortedTable_insertAll :
    ∀ (names : List String) {tbl : GroupTable}, SortedTable tbl →
      SortedTable (insertAll tbl names)
  | [], _, h => h
  | _ :: names, _, h => sortedTable_insertAll names (sortedTable_insertName _ _ h)

theorem lookupG_insertAll :
    ∀ (names : List String) {tbl : GroupTable}, SortedTable tbl → ∀ k,
      lookupG (insertAll tbl names) k =
        lookupG tbl k ++ names.filter (fun s => decide (extKey s = k))
  | [], tbl, _, k => by simp [insertAll]
  | s :: names, tbl, h, k => by
    rw [insertAll_cons, lookupG_insertAll names (sortedTable_insertName _ _ h) k,
        lookupG_insertName _ _ h k, List.filter_cons]
    by_cases hk : extKey s = k
    · subst hk
      simp [List.append_assoc]
    · have hk' : ¬ k = extKey s := fun he => hk he.symm
      simp [hk, hk']

theorem mem_tableKeys_insertAll :
    ∀ (names : List String) (tbl : GroupTable) (k : String),
      k ∈ tableKeys (insertAll tbl names) ↔
        k ∈ tableKeys tbl ∨ ∃ s ∈ names, extKey s = k
  | [], tbl, k => by simp [insertAll]
  | s :: names, tbl, k => by
    rw [insertAll_cons, mem_tableKeys_insertAll names _ k]
    simp only [mem_tableKeys_insertName, List.mem_cons]
    constructor
    · rintro ((rfl | hm) | ⟨t, ht, hk⟩)
      · exact Or.inr ⟨s, Or.inl rfl, rfl⟩
      · exact Or.inl hm
      · exact Or.inr ⟨t, Or.inr ht, hk⟩
    · rintro (hm | ⟨t, rfl | ht, hk⟩)
      · exact Or.inl (Or.inr hm)
      · exact Or.inl (Or.inl hk.symm)
      · exact Or.inr ⟨t, ht, hk⟩

theorem groupsNeNil_insertAll :
    ∀ (names : List String) {tbl : GroupTable},
      (∀ g ∈ tbl, g.2 ≠ []) → ∀ g ∈ insertAll tbl names, g.2 ≠ []
  | [], _, h => h
  | _ :: names, _, h => groupsNeNil_insertAll names (groupsNeNil_insertName _ _ h)

/-! ### Characterization of the scan and of the rendered report -/

theorem processEntry_eq (tbl : GroupTable) (e : DirEntry) :
    processEntry tbl e =
      match entryName e with
      | some s => insertName tbl (extKey s) s
      | none => tbl := by
  rcases e with ⟨f, n⟩
  cases f
  · simp [processEntry, entryName]
  · cases n with
    | none => simp [processEntry, entryName]
    | some s =>
      by_cases hh : isHidden s
      · simp [processEntry, entryName, hh]
      · simp [processEntry, entryName, hh]

theorem foldl_processEntry_eq :
    ∀ (es : List DirEntry) (tbl : GroupTable),
      es.foldl processEntry tbl = insertAll tbl (includedNames es)
  | [], tbl => rfl
  | e :: es, tbl => by
    rw [List.foldl_cons, foldl_processEntry_eq es (processEntry tbl e), processEntry_eq]
    cases he : entryName e with
    | none => simp [includedNames, List.filterMap_cons, he]
    | some s => simp [includedNames, List.filterMap_cons, he, insertAll_cons]

theorem buildTable_eq (es : List DirEntry) :
    buildTable es = insertAll [] (includedNames es) :=
  foldl_processEntry_eq es []

theorem sortedTable_nil : SortedTable [] := by
  simp [SortedTable, tableKeys]

theorem sortedTable_buildTable (es : List DirEntry) : SortedTable (buildTable es) := by
  rw [buildTable_eq]
  exact sortedTable_insertAll _ sortedTable_nil

theorem lookupG_buildTable (es : List DirEntry) (k : String) :
    lookupG (buildTable es) k =
      (includedNames es).filter (fun s => decide (extKey s = k)) := by
  rw [buildTable_eq, lookupG_insertAll _ sortedTable_nil k]
  simp [lookupG]

theorem mem_tableKeys_buildTable (es : List DirEntry) (k : String) :
    k ∈ tableKeys (buildTable es) ↔ ∃ s ∈ includedNames es, extKey s = k := by
  rw [buildTable_eq, mem_tableKeys_insertAll]
  simp [tableKeys]

theorem groupsNeNil_buildTable (es : List DirEntry) : ∀ g ∈ buildTable es, g.2 ≠ [] := by
  rw [buildTable_eq]
  exact groupsNeNil_insertAll _ (by simp)

theorem nodup_tableKeys_buildTable (es : List DirEntry) :
    (tableKeys (buildTable es)).Nodup := by
  have h := sortedTable_buildTable es
  rw [SortedTable, List.Sorted] at h
  exact h.imp fun hab => strLt_ne hab

theorem table_eq_keys_map :
    ∀ {tbl : GroupTable}, SortedTable tbl →
      tbl = (tableKeys tbl).map (fun k => (k, lookupG tbl k))
  | [], _ => rfl
  | (k0, fs) :: rest, h => by
    rw [SortedTable, tableKeys_cons, List.sorted_cons] at h
    obtain ⟨hmin, hsorted⟩ := h
    rw [tableKeys_cons, List.map_cons]
    congr 1
    · simp [lookupG]
    · have ih := @table_eq_keys_map rest hsorted
      conv_lhs => rw [ih]
      refine List.map_congr_left fun k hk => ?_
      have hne : ¬ k = k0 := fun he => strLt_irrefl k0 (he ▸ hmin k hk)
      simp [lookupG, hne]

theorem reportGroups_eq (es : List DirEntry) :
    reportGroups es = (tableKeys (buildTable es)).map
      (fun k => (k,
        ((includedNames es).filter (fun s => decide (extKey s = k))).insertionSort strLe)) := by
  rw [reportGroups]
  conv_lhs => rw [table_eq_keys_map (sortedTable_buildTable es)]
  rw [List.map_map]
  refine List.map_congr_left fun k hk => ?_
  simp [Function.comp, lookupG_buildTable]

theorem renderGroups_eq :
    ∀ tbl : GroupTable,
      renderGroups tbl =
        concatAll ((tbl.map (fun g => (g.1, g.2.insertionSort strLe))).map groupText)
  | [] => rfl
  | (k0, fs) :: rest => by
    rw [List.map_cons, List.map_cons]
    show _ = concatAll (groupText (k0, fs.insertionSort strLe) :: _)
    rw [concatAll, ← renderGroups_eq rest]
    simp [renderGroups, groupText]

theorem renderGroups_buildTable (es : List DirEntry) :
    renderGroups (buildTable es) = reportText es := by
  rw [renderGroups_eq, reportText, reportGroups]

theorem scanEntries_map_ok :
    ∀ (es : List DirEntry) (tbl : GroupTable),
      scanEntries tbl (es.map Except.ok) = Except.ok (es.foldl processEntry tbl)
  | [], _ => rfl
  | e :: es, tbl => by
    rw [List.map_cons]
    exact scanEntries_map_ok es (processEntry tbl e)

theorem run_file_sorter_ok (dir : String) (es : List DirEntry) :
    run_file_sorter (Except.ok dir) (Except.ok (es.map Except.ok)) =
      ("Scanning directory: " ++ dir ++ "\n\n" ++ reportText es, Except.ok ()) := by
  simp only [run_file_sorter, scanEntries_map_ok]
  rw [← buildTable, renderGroups_buildTable]

theorem mainRun_ok (dir : String) (es : List DirEntry) :
    mainRun (Except.ok dir) (Except.ok (es.map Except.ok)) =
      ⟨"Scanning directory: " ++ dir ++ "\n\n" ++ reportText es, "", 0⟩ := by
  rw [mainRun, run_file_sorter_ok]

/-! ### Support lemmas for the claims -/

theorem entryName_some {e : DirEntry} {s : String} :
    entryName e = some s ↔
      e.isFile = true ∧ e.nameUtf8 = some s ∧ isHidden s = false := by
  constructor
  · intro h
    rcases e with ⟨f, n⟩
    cases f
    · simp [entryName] at h
    · cases n with
      | none => simp [entryName] at h
      | some t =>
        by_cases hh : isHidden t
        · simp [entryName, hh] at h
        · have hval : entryName ⟨true, some t⟩ = some t := by simp [entryName, hh]
          rw [hval] at h
          have ht := Option.some.inj h
          subst ht
          exact ⟨rfl, rfl, by simpa using hh⟩
  · rintro ⟨hf, hn, hs⟩
    rcases e with ⟨f, n⟩
    cases f
    · exact absurd hf (by simp)
    · cases n with
      | none => simp at hn
      | some t =>
        have ht : t = s := by simpa using hn
        subst ht
        simp [entryName, hs]

theorem sorted_strLt_ext :
    ∀ {l1 l2 : List String}, l1.Sorted strLt → l2.Sorted strLt →
      (∀ s, s ∈ l1 ↔ s ∈ l2) → l1 = l2
  | [], [], _, _, _ => rfl
  | [], b :: l2, _, _, hm => by
    have hb := (hm b).mpr (List.mem_cons_self b l2)
    simp at hb
  | a :: l1, [], _, _, hm => by
    have ha := (hm a).mp (List.mem_cons_self a l1)
    simp at ha
  | a :: l1, b :: l2, h1, h2, hm => by
    rw [List.sorted_cons] at h1 h2
    obtain ⟨h1min, h1s⟩ := h1
    obtain ⟨h2min, h2s⟩ := h2
    have hab : a = b := by
      rcases List.mem_cons.mp ((hm a).mp (List.mem_cons_self a l1)) with h | h
      · exact h
      · rcases List.mem_cons.mp ((hm b).mpr (List.mem_cons_self b l2)) with h' | h'
        · exact h'.symm
        · exact absurd (h2min a h) (strLt_asymm (h1min b h'))
    subst hab
    congr 1
    apply sorted_strLt_ext h1s h2s
    intro s
    constructor
    · intro hs
      rcases List.mem_cons.mp ((hm s).mp (List.mem_cons_of_mem a hs)) with rfl | h
      · exact absurd (h1min s hs) (strLt_irrefl s)
      · exact h
    · intro hs
      rcases List.mem_cons.mp ((hm s).mpr (List.mem_cons_of_mem a hs)) with rfl | h
      · exact absurd (h2min s hs) (strLt_irrefl s)
      · exact h

theorem filterMap_nodup_inj {α β : Type} {f : α → Option β} :
    ∀ (l : List α) {a b : α} {s : β},
      (l.filterMap f).Nodup → a ∈ l → b ∈ l → f a = some s → f b = some s → a = b := by
  intro l
  induction l with
  | nil =>
    intro a b s _ ha
    exact absurd ha (List.not_mem_nil a)
  | cons x xs ih =>
    intro a b s hnd ha hb hfa hfb
    rcases List.mem_cons.mp ha with rfl | ha'
    · rcases List.mem_cons.mp hb with rfl | hb'
      · rfl
      · exfalso
        simp only [List.filterMap_cons, hfa, List.nodup_cons] at hnd
        exact hnd.1 (List.mem_filterMap.mpr ⟨b, hb', hfb⟩)
    · rcases List.mem_cons.mp hb with rfl | hb'
      · exfalso
        simp only [List.filterMap_cons, hfb, List.nodup_cons] at hnd
        exact hnd.1 (List.mem_filterMap.mpr ⟨a, ha', hfa⟩)
      · refine ih ?_ ha' hb' hfa hfb
        cases hfx : f x
        · simpa only [List.filterMap_cons, hfx] using hnd
        · simp only [List.filterMap_cons, hfx, List.nodup_cons] at hnd
          exact hnd.2

theorem sum_map_zero :
    ∀ (ks : List String) (f : String → Nat), (∀ k ∈ ks, f k = 0) → (ks.map f).sum = 0
  | [], _, _ => rfl
  | x :: xs, f, h => by
    rw [List.map_cons, List.sum_cons, h x (List.mem_cons_self x xs),
      sum_map_zero xs f (fun k hk => h k (List.mem_cons_of_mem x hk))]

theorem sum_map_single :
    ∀ (ks : List String) (f : String → Nat) (k0 : String),
      ks.Nodup → k0 ∈ ks → (∀ k ∈ ks, k ≠ k0 → f k = 0) → (ks.map f).sum = f k0
  | [], _, k0, _, hmem, _ => absurd hmem (List.not_mem_nil k0)
  | x :: xs, f, k0, hnd, hmem, hz => by
    rw [List.map_cons, List.sum_cons]
    rcases List.mem_cons.mp hmem with rfl | hm
    · have hx : k0 ∉ xs := (List.nodup_cons.mp hnd).1
      rw [sum_map_zero xs f
        (fun k hk => hz k (List.mem_cons_of_mem _ hk) (fun he => hx (he ▸ hk)))]
      omega
    · have hx : x ∉ xs := (List.nodup_cons.mp hnd).1
      have hxk : x ≠ k0 := fun he => hx (he ▸ hm)
      rw [hz x (List.mem_cons_self _ _) hxk,
        sum_map_single xs f k0 (List.nodup_cons.mp hnd).2 hm
          (fun k hk hkne => hz k (List.mem_cons_of_mem _ hk) hkne)]
      omega

theorem dropWhile_head_not {α : Type} {p : α → Bool} :
    ∀ {l : List α} {c : α} {rest : List α}, l.dropWhile p = c :: rest → p c = false
  | [], _, _, h => by simp [List.dropWhile] at h
  | x :: xs, c, rest, h => by
    by_cases hp : p x
    · rw [List.dropWhile_cons, if_pos hp] at h
      exact dropWhile_head_not h
    · rw [List.dropWhile_cons, if_neg hp] at h
      injection h with h1 _
      subst h1
      simpa using hp

theorem isHidden_cons {s : String} {cs : List Char} (h : s.data = '.' :: cs) :
    isHidden s = true := by
  simp [isHidden, h]

theorem reportGroups_map_fst (es : List DirEntry) :
    (reportGroups es).map Prod.fst = tableKeys (buildTable es) := by
  rw [reportGroups, List.map_map]
  rfl

theorem mem_reportGroups (es : List DirEntry) {g : String × List String}
    (hg : g ∈ reportGroups es) :
    ∃ k ∈ tableKeys (buildTable es),
      g = (k,
        ((includedNames es).filter (fun s => decide (extKey s = k))).insertionSort strLe) := by
  rw [reportGroups_eq] at hg
  rcases List.mem_map.mp hg with ⟨k, hk, rfl⟩
  exact ⟨k, hk, rfl⟩

theorem mem_group_included (es : List DirEntry) {g : String × List String}
    (hg : g ∈ reportGroups es) {s : String} (hs : s ∈ g.2) :
    s ∈ includedNames es ∧ extKey s = g.1 := by
  rcases mem_reportGroups es hg with ⟨k, hk, rfl⟩
  have hs' := (List.perm_insertionSort strLe _).mem_iff.mp hs
  rcases List.mem_filter.mp hs' with ⟨hmem, hdec⟩
  exact ⟨hmem, of_decide_eq_true hdec⟩

theorem key_count (names : List String) (s : String) (hnd : names.Nodup)
    (hs : s ∈ names) (k : String) :
    (names.filter (fun x => decide (extKey x = k))).count s
      = if k = extKey s then 1 else 0 := by
  by_cases hk : k = extKey s
  · subst hk
    rw [if_pos rfl, List.count_filter (by simp)]
    exact List.count_eq_one_of_mem hnd hs
  · rw [if_neg hk]
    apply List.count_eq_zero.mpr
    intro hmem
    rcases List.mem_filter.mp hmem with ⟨_, hdec⟩
    exact hk (of_decide_eq_true hdec).symm

/-! ### The claims -/

/-- C2, counterexample: on a successful run over an empty directory the
report is empty, yet standard output is not — line 16 of `main.rs` prints a
`Scanning directory:` banner before the report, so standard output does not
consist exactly of the report. -/
theorem c2_stdout_not_report :
    (mainRun (Except.ok "/tmp") (Except.ok [])).stdout ≠ reportText [] ∧
    reportText [] = "" := by
  constructor
  · decide
  · rfl

/-- C2, amended: on a successful run, standard output consists of the banner
line `Scanning directory: <dir>` followed by a blank line and then exactly
the report: for each group key in order a header line with the key followed
by a colon, one `- `-prefixed line per filename, and one blank separator
line after each group including the last; nothing is written to standard
error. -/
theorem c2_stdout_format (dir : String) (es : List DirEntry) :
    (mainRun (Except.ok dir) (Except.ok (es.map Except.ok))).stdout =
      "Scanning directory: " ++ dir ++ "\n\n" ++
        concatAll ((reportGroups es).map (fun g =>
          g.1 ++ ":\n" ++ concatAll (g.2.map (fun f => "- " ++ f ++ "\n")) ++ "\n")) ∧
    (mainRun (Except.ok dir) (Except.ok (es.map Except.ok))).stderr = "" := by
  rw [mainRun_ok]
  exact ⟨rfl, rfl⟩

/-- C3, counterexample: when opening the directory for iteration fails, the
exit status is 1 but standard output is not empty — the banner printed at
line 16 of `main.rs` is already out. -/
theorem c3_failure_stdout_nonempty :
    (mainRun (Except.ok "/tmp") (Except.error "boom")).exitCode = 1 ∧
    (mainRun (Except.ok "/tmp") (Except.error "boom")).stdout ≠ "" := by
  constructor
  · rfl
  · decide

/-- C3, amended: on every failing run, standard output is either empty (the
current directory could not be resolved) or exactly the banner line and the
blank line after it (opening or iterating the directory failed); no group
output is ever printed by a failing run, because the report is printed only
after the entire table has been built — it is all-or-nothing. -/
theorem c3_failure_no_report (cd : Except String String)
    (rd : Except String (List (Except String DirEntry)))
    (h : (mainRun cd rd).exitCode = 1) :
    (mainRun cd rd).stdout = "" ∨
      ∃ d, cd = Except.ok d ∧
        (mainRun cd rd).stdout = "Scanning directory: " ++ d ++ "\n\n" := by
  cases cd with
  | error e => exact Or.inl rfl
  | ok d =>
    cases rd with
    | error e => exact Or.inr ⟨d, rfl, rfl⟩
    | ok entries =>
      cases hscan : scanEntries [] entries with
      | error e =>
        refine Or.inr ⟨d, rfl, ?_⟩
        simp [mainRun, run_file_sorter, hscan]
      | ok tbl =>
        exfalso
        simp [mainRun, run_file_sorter, hscan] at h

/-- C3, witness of the amended theorem at a concrete failing run. -/
theorem c3_failure_no_report_witness :
    (mainRun (Except.error "fail") (Except.ok [])).exitCode = 1 ∧
    ((mainRun (Except.error "fail") (Except.ok [])).stdout = "" ∨
      ∃ d, (Except.error "fail" : Except String String) = Except.ok d ∧
        (mainRun (Except.error "fail") (Except.ok [])).stdout =
          "Scanning directory: " ++ d ++ "\n\n") :=
  ⟨by decide, c3_failure_no_report _ _ (by decide)⟩

/-- C4: a run whose `run_file_sorter` returns `Ok` exits with status 0 and
writes nothing to standard error; a run that fails with message `e` exits
with status 1 and writes the single line `An error occurred: <e>` to
standard error. -/
theorem c4_exit_codes (cd : Except String String)
    (rd : Except String (List (Except String DirEntry))) :
    ((run_file_sorter cd rd).2 = Except.ok () →
      (mainRun cd rd).exitCode = 0 ∧ (mainRun cd rd).stderr = "") ∧
    ∀ e, (run_file_sorter cd rd).2 = Except.error e →
      (mainRun cd rd).exitCode = 1 ∧
      (mainRun cd rd).stderr = "An error occurred: " ++ e ++ "\n" := by
  rcases hrun : run_file_sorter cd rd with ⟨out, res⟩
  cases res with
  | ok u =>
    cases u
    constructor
    · intro _
      simp [mainRun, hrun]
    · intro e he
      simp at he
  | error e0 =>
    constructor
    · intro hcon
      simp at hcon
    · intro e he
      simp only [Except.error.injEq] at he
      subst he
      simp [mainRun, hrun]

/-- C4, witness: a concrete successful run and a concrete failing run. -/
theorem c4_exit_codes_witness :
    ((mainRun (Except.ok "/d") (Except.ok [])).exitCode = 0 ∧
      (mainRun (Except.ok "/d") (Except.ok [])).stderr = "") ∧
    (mainRun (Except.error "oops") (Except.ok [])).exitCode = 1 ∧
    (mainRun (Except.error "oops") (Except.ok [])).stderr =
      "An error occurred: " ++ "oops" ++ "\n" :=
  ⟨(c4_exit_codes (Except.ok "/d") (Except.ok [])).1 (by rfl),
   (c4_exit_codes (Except.error "oops") (Except.ok [])).2 "oops" (by rfl)⟩

/-- C9: the run outcome is a function of the multiset of directory entries:
two successful runs over the same entries, enumerated in any order, have
byte-identical output (and identical standard error and exit status). -/
theorem c9_deterministic (dir : String) (es1 es2 : List DirEntry)
    (hperm : List.Perm es1 es2) :
    mainRun (Except.ok dir) (Except.ok (es1.map Except.ok)) =
      mainRun (Except.ok dir) (Except.ok (es2.map Except.ok)) := by
  rw [mainRun_ok, mainRun_ok]
  have hnames : List.Perm (includedNames es1) (includedNames es2) :=
    hperm.filterMap entryName
  have hkeys : tableKeys (buildTable es1) = tableKeys (buildTable es2) := by
    apply sorted_strLt_ext (sortedTable_buildTable es1) (sortedTable_buildTable es2)
    intro k
    rw [mem_tableKeys_buildTable, mem_tableKeys_buildTable]
    constructor
    · rintro ⟨s, hsm, hk⟩
      exact ⟨s, hnames.mem_iff.mp hsm, hk⟩
    · rintro ⟨s, hsm, hk⟩
      exact ⟨s, hnames.mem_iff.mpr hsm, hk⟩
  have hgroups : reportGroups es1 = reportGroups es2 := by
    rw [reportGroups_eq, reportGroups_eq, hkeys]
    refine List.map_congr_left fun k hk => ?_
    congr 1
    exact List.eq_of_perm_of_sorted
      (((List.perm_insertionSort strLe _).trans (hnames.filter _)).trans
        (List.perm_insertionSort strLe _).symm)
      (List.sorted_insertionSort strLe _) (List.sorted_insertionSort strLe _)
  rw [reportText, reportText, hgroups]

/-- C9, witness: two concrete runs over oppositely ordered enumerations of
the same two entries. -/
theorem c9_deterministic_witness :
    List.Perm [(⟨true, some "b.txt"⟩ : DirEntry), ⟨true, some "a.md"⟩]
      [(⟨true, some "a.md"⟩ : DirEntry), ⟨true, some "b.txt"⟩] ∧
    mainRun (Except.ok "/d")
        (Except.ok ([(⟨true, some "b.txt"⟩ : DirEntry), ⟨true, some "a.md"⟩].map Except.ok)) =
      mainRun (Except.ok "/d")
        (Except.ok ([(⟨true, some "a.md"⟩ : DirEntry), ⟨true, some "b.txt"⟩].map Except.ok)) :=
  ⟨List.Perm.swap _ _ _,
   c9_deterministic "/d" _ _ (List.Perm.swap _ _ _)⟩

/-- C10: a regular, non-hidden directory entry whose file name is not valid
UTF-8 is silently omitted: the run produces exactly the outcome it would
produce without that entry, and it still succeeds with exit status 0. -/
theorem c10_invalid_utf8_omitted (dir : String) (es1 es2 : List DirEntry)
    (e : DirEntry) (h : e.nameUtf8 = none) :
    mainRun (Except.ok dir) (Except.ok ((es1 ++ e :: es2).map Except.ok)) =
      mainRun (Except.ok dir) (Except.ok ((es1 ++ es2).map Except.ok)) ∧
    (mainRun (Except.ok dir) (Except.ok ((es1 ++ e :: es2).map Except.ok))).exitCode
      = 0 := by
  have hpe : ∀ tbl, processEntry tbl e = tbl := by
    intro tbl
    rw [processEntry_eq]
    have : entryName e = none := by
      rcases e with ⟨f, n⟩
      have hn : n = none := h
      subst hn
      cases f <;> simp [entryName]
    rw [this]
  have hbt : buildTable (es1 ++ e :: es2) = buildTable (es1 ++ es2) := by
    rw [buildTable, buildTable, List.foldl_append, List.foldl_append, List.foldl_cons, hpe]
  have hrt : reportText (es1 ++ e :: es2) = reportText (es1 ++ es2) := by
    rw [reportText, reportText, reportGroups, reportGroups, hbt]
  rw [mainRun_ok, mainRun_ok, hrt]
  exact ⟨rfl, rfl⟩

/-- C10, witness: a concrete entry with an undecodable name among two
decodable ones. -/
theorem c10_invalid_utf8_omitted_witness :
    (⟨true, none⟩ : DirEntry).nameUtf8 = none ∧
    (mainRun (Except.ok "/d")
        (Except.ok ((([⟨true, some "a.txt"⟩] : List DirEntry) ++ (⟨true, none⟩ : DirEntry) ::
          ([⟨true, some "b.txt"⟩] : List DirEntry)).map Except.ok)) =
      mainRun (Except.ok "/d")
        (Except.ok ((([⟨true, some "a.txt"⟩] : List DirEntry) ++
          ([⟨true, some "b.txt"⟩] : List DirEntry)).map Except.ok)) ∧
    (mainRun (Except.ok "/d")
        (Except.ok ((([⟨true, some "a.txt"⟩] : List DirEntry) ++ (⟨true, none⟩ : DirEntry) ::
          ([⟨true, some "b.txt"⟩] : List DirEntry)).map Except.ok))).exitCode = 0) :=
  ⟨rfl, c10_invalid_utf8_omitted "/d" [⟨true, some "a.txt"⟩] [⟨true, some "b.txt"⟩]
    ⟨true, none⟩ rfl⟩

/-- C5: the group keys of the report are strictly ascending in the Rust
string order (byte/codepoint comparison), and the placeholder key `":"`
(codepoint 0x3A) sorts strictly before every key that starts with a
lowercase ASCII letter. -/
theorem c5_keys_sorted (es : List DirEntry) :
    ((reportGroups es).map Prod.fst).Sorted strLt ∧
    ∀ k : String, (∃ c cs, k.data = c :: cs ∧
        ('a').toNat ≤ c.toNat ∧ c.toNat ≤ ('z').toNat) →
      strLt NO_EXTENSION_PLACEHOLDER k := by
  constructor
  · rw [reportGroups_map_fst]
    exact sortedTable_buildTable es
  · rintro k ⟨c, cs, hdata, hlo, hhi⟩
    show charsLt NO_EXTENSION_PLACEHOLDER.data k.data = true
    have hd : NO_EXTENSION_PLACEHOLDER.data = [':'] := rfl
    rw [hd, hdata]
    have h58 : (':').toNat = 58 := by decide
    have h97 : ('a').toNat = 97 := by decide
    have hlt : (':').toNat < c.toNat := by omega
    simp only [charsLt]
    simp only [hlt, if_true, ite_true]

/-- C5, witness: a concrete report with keys `:` < `md` < `txt`, and the
placeholder sorted before the concrete lowercase key `txt`. -/
theorem c5_keys_sorted_witness :
    ((reportGroups [(⟨true, some "a.txt"⟩ : DirEntry), ⟨true, some "b"⟩,
        ⟨true, some "n.MD"⟩]).map Prod.fst).Sorted strLt ∧
    strLt NO_EXTENSION_PLACEHOLDER "txt" :=
  ⟨(c5_keys_sorted _).1,
   (c5_keys_sorted []).2 "txt" ⟨'t', ['x', 't'], rfl, by decide, by decide⟩⟩

/-- C6: within every printed group the file names are strictly ascending in
the Rust string order; strictness holds because the names of the entries of
one directory are distinct. -/
theorem c6_group_files_sorted (es : List DirEntry)
    (hnd : (includedNames es).Nodup) :
    ∀ g ∈ reportGroups es, List.Sorted strLt g.2 := by
  intro g hg
  rcases mem_reportGroups es hg with ⟨k, hk, rfl⟩
  show List.Sorted strLt
    (((includedNames es).filter (fun s => decide (extKey s = k))).insertionSort strLe)
  have hsle : List.Sorted strLe
      (((includedNames es).filter (fun s => decide (extKey s = k))).insertionSort strLe) :=
    List.sorted_insertionSort strLe _
  have hnodup :
      ((((includedNames es).filter (fun s => decide (extKey s = k))).insertionSort strLe)).Nodup :=
    (List.perm_insertionSort strLe _).symm.nodup (hnd.filter _)
  exact (hsle.and hnodup).imp fun hab => by
    rcases strLe_iff.mp hab.1 with h | h
    · exact h
    · exact absurd h hab.2

/-- C6, witness: a concrete directory whose groups are strictly sorted. -/
theorem c6_group_files_sorted_witness :
    (includedNames [(⟨true, some "b.txt"⟩ : DirEntry), ⟨true, some "B.TXT"⟩,
        ⟨true, some "a.txt"⟩]).Nodup ∧
    ∀ g ∈ reportGroups [(⟨true, some "b.txt"⟩ : DirEntry), ⟨true, some "B.TXT"⟩,
        ⟨true, some "a.txt"⟩], List.Sorted strLt g.2 :=
  ⟨by decide, c6_group_files_sorted _ (by decide)⟩

/-- C7: for every non-hidden file name, the group key is the lowercased
substring after the last dot when the name contains a dot, and the
placeholder otherwise; concretely `A.TXT` and `b.txt` both map to `txt`,
and `README` maps to the placeholder. -/
theorem c7_extension_key (s : String) (h : isHidden s = false) :
    extKey s =
      (match afterLastDot s with
       | some t => lowerStr t
       | none => NO_EXTENSION_PLACEHOLDER) ∧
    extKey "A.TXT" = "txt" ∧ extKey "b.txt" = "txt" ∧
    extKey "README" = NO_EXTENSION_PLACEHOLDER := by
  refine ⟨?_, by decide, by decide, by decide⟩
  have hne2 : s ≠ ".." := by
    intro he
    rw [he] at h
    exact absurd h (by decide)
  by_cases hdot : '.' ∈ s.data
  · rw [afterLastDot, if_pos hdot]
    cases hdw : s.data.reverse.dropWhile (fun c => c != '.') with
    | nil =>
      exfalso
      have hall : ∀ x ∈ s.data.reverse, (x != '.') = true :=
        List.dropWhile_eq_nil_iff.mp hdw
      have hdot' : ('.' : Char) ∈ s.data.reverse := List.mem_reverse.mpr hdot
      have := hall '.' hdot'
      simp at this
    | cons c beforeRev =>
      have hc : (c != '.') = false :=
        dropWhile_head_not (p := fun x => x != '.') (l := s.data.reverse) hdw
      have hc' : c = '.' := by simpa using hc
      subst hc'
      have hbr : beforeRev ≠ [] := by
        intro hbe
        subst hbe
        have hsplit : s.data.reverse.takeWhile (fun c => c != '.') ++ ['.']
            = s.data.reverse := by
          conv_rhs => rw [← List.takeWhile_append_dropWhile
            (p := fun c => c != '.') (l := s.data.reverse)]
          rw [hdw]
        have hdata : s.data = '.' :: (s.data.reverse.takeWhile (fun c => c != '.')).reverse := by
          calc s.data = s.data.reverse.reverse := (List.reverse_reverse _).symm
            _ = (s.data.reverse.takeWhile (fun c => c != '.') ++ ['.']).reverse := by
                rw [hsplit]
            _ = '.' :: (s.data.reverse.takeWhile (fun c => c != '.')).reverse := by
                rw [List.reverse_append]
                rfl
        rw [isHidden_cons hdata] at h
        exact absurd h (by simp)
      have hbr' : beforeRev.isEmpty = false := by
        cases beforeRev
        · exact absurd rfl hbr
        · rfl
      have hre : rustExtension s =
          some ⟨(s.data.reverse.takeWhile (fun c => c != '.')).reverse⟩ := by
        rw [rustExtension, if_neg hne2]
        simp [hdw, hbr']
      rw [extKey, hre]
  · rw [afterLastDot, if_neg hdot]
    have hdw : s.data.reverse.dropWhile (fun c => c != '.') = [] := by
      apply List.dropWhile_eq_nil_iff.mpr
      intro x hx
      have hxmem : x ∈ s.data := List.mem_reverse.mp hx
      have hxne : x ≠ '.' := fun he => hdot (he ▸ hxmem)
      simpa using hxne
    have hre : rustExtension s = none := by
      rw [rustExtension, if_neg hne2]
      simp [hdw]
    rw [extKey, hre]

/-- C7, witness: the characterization applied at the concrete non-hidden
name `A.TXT`. -/
theorem c7_extension_key_witness :
    isHidden "A.TXT" = false ∧
    (extKey "A.TXT" =
      (match afterLastDot "A.TXT" with
       | some t => lowerStr t
       | none => NO_EXTENSION_PLACEHOLDER) ∧
    extKey "A.TXT" = "txt" ∧ extKey "b.txt" = "txt" ∧
    extKey "README" = NO_EXTENSION_PLACEHOLDER) :=
  ⟨by decide, c7_extension_key "A.TXT" (by decide)⟩

/-- C8: every name printed in a group is non-hidden and names a regular-file
entry (regular status is the entry's resolved type, independent of its
name); and, assuming the names of the directory's entries are distinct, the
name of a non-regular entry (directory, symlink to a directory, special
file) is never printed in any group.  Hidden entries are excluded
unconditionally by the first part. -/
theorem c8_hidden_nonregular_excluded (es : List DirEntry) :
    (∀ g ∈ reportGroups es, ∀ s ∈ g.2,
        isHidden s = false ∧ ∃ e ∈ es, e.isFile = true ∧ e.nameUtf8 = some s) ∧
    ((es.filterMap DirEntry.nameUtf8).Nodup →
      ∀ e ∈ es, e.isFile = false → ∀ s, e.nameUtf8 = some s →
        ∀ g ∈ reportGroups es, s ∉ g.2) := by
  have hmain : ∀ g ∈ reportGroups es, ∀ s ∈ g.2,
      isHidden s = false ∧ ∃ e ∈ es, e.isFile = true ∧ e.nameUtf8 = some s := by
    intro g hg s hs
    have h1 := mem_group_included es hg hs
    rcases List.mem_filterMap.mp h1.1 with ⟨e, he, hen⟩
    rcases entryName_some.mp hen with ⟨hf, hn, hh⟩
    exact ⟨hh, e, he, hf, hn⟩
  refine ⟨hmain, fun hnd e he hef s hes g hg hs => ?_⟩
  rcases (hmain g hg s hs).2 with ⟨e', he', hf', hn'⟩
  have heq : e = e' := filterMap_nodup_inj es hnd he he' hes hn'
  rw [heq, hf'] at hef
  exact absurd hef (by simp)

/-- C8, witness: a concrete directory with a subdirectory entry, discharging
the distinct-names hypothesis. -/
theorem c8_hidden_nonregular_excluded_witness :
    (([(⟨true, some "a.txt"⟩ : DirEntry), ⟨false, some "sub"⟩].filterMap
        DirEntry.nameUtf8).Nodup) ∧
    (∀ e ∈ [(⟨true, some "a.txt"⟩ : DirEntry), ⟨false, some "sub"⟩],
      e.isFile = false → ∀ s, e.nameUtf8 = some s →
      ∀ g ∈ reportGroups [(⟨true, some "a.txt"⟩ : DirEntry), ⟨false, some "sub"⟩],
        s ∉ g.2) :=
  ⟨by decide,
   (c8_hidden_nonregular_excluded
     [(⟨true, some "a.txt"⟩ : DirEntry), ⟨false, some "sub"⟩]).2 (by decide)⟩

/-- C1: in a successful scan with distinct included names, every included
file name occurs exactly once across all the file lists of the report, only
in the group whose key is its computed extension key, and no printed group
is empty. -/
theorem c1_partition (es : List DirEntry)
    (hnd : (includedNames es).Nodup) :
    (∀ s ∈ includedNames es,
        ((reportGroups es).map Prod.snd).flatten.count s = 1 ∧
        ∀ g ∈ reportGroups es, s ∈ g.2 → g.1 = extKey s) ∧
    ∀ g ∈ reportGroups es, g.2 ≠ [] := by
  refine ⟨fun s hs => ⟨?_, fun g hg hsg => (mem_group_included es hg hsg).2.symm⟩, ?_⟩
  · rw [reportGroups_eq, List.map_map, List.count_flatten, List.map_map]
    have hmemk : extKey s ∈ tableKeys (buildTable es) :=
      (mem_tableKeys_buildTable es (extKey s)).mpr ⟨s, hs, rfl⟩
    rw [sum_map_single (tableKeys (buildTable es)) _ (extKey s)
      (nodup_tableKeys_buildTable es) hmemk ?_]
    · show (((includedNames es).filter
          (fun x => decide (extKey x = extKey s))).insertionSort strLe).count s = 1
      rw [(List.perm_insertionSort strLe _).count_eq s, key_count _ s hnd hs]
      simp
    · intro k hk hkne
      show (((includedNames es).filter
          (fun x => decide (extKey x = k))).insertionSort strLe).count s = 0
      rw [(List.perm_insertionSort strLe _).count_eq s, key_count _ s hnd hs,
        if_neg (fun he => hkne he)]
  · intro g hg
    rw [reportGroups] at hg
    rcases List.mem_map.mp hg with ⟨g0, hg0, rfl⟩
    have hne := groupsNeNil_buildTable es g0 hg0
    intro hcon
    apply hne
    have hlen := congrArg List.length hcon
    rw [List.length_insertionSort] at hlen
    simpa using List.length_eq_zero.mp (by simpa using hlen)

/-- C1, witness: the partition invariant on a concrete directory with two
groups. -/
theorem c1_partition_witness :
    (includedNames [(⟨true, some "a.txt"⟩ : DirEntry), ⟨true, some "B.TXT"⟩,
        ⟨true, some "README"⟩, ⟨false, some "sub"⟩]).Nodup ∧
    ((∀ s ∈ includedNames [(⟨true, some "a.txt"⟩ : DirEntry), ⟨true, some "B.TXT"⟩,
          ⟨true, some "README"⟩, ⟨false, some "sub"⟩],
        ((reportGroups [(⟨true, some "a.txt"⟩ : DirEntry), ⟨true, some "B.TXT"⟩,
            ⟨true, some "README"⟩, ⟨false, some "sub"⟩]).map Prod.snd).flatten.count s = 1 ∧
        ∀ g ∈ reportGroups [(⟨true, some "a.txt"⟩ : DirEntry), ⟨true, some "B.TXT"⟩,
            ⟨true, some "README"⟩, ⟨false, some "sub"⟩], s ∈ g.2 → g.1 = extKey s) ∧
      ∀ g ∈ reportGroups [(⟨true, some "a.txt"⟩ : DirEntry), ⟨true, some "B.TXT"⟩,
          ⟨true, some "README"⟩, ⟨false, some "sub"⟩], g.2 ≠ []) :=
  ⟨by decide,
   c1_partition [(⟨true, some "a.txt"⟩ : DirEntry), ⟨true, some "B.TXT"⟩,
      ⟨true, some "README"⟩, ⟨false, some "sub"⟩] (by decide)⟩
